import Mathlib

/-!
# Verification of the dead-leaves chart generator

A shallow embedding of `rstor/synthetic_data/dead_leaves.py` (function
`dead_leaves_chart`) together with proofs of the specified properties.

Modelling conventions:
* NumPy float arrays carry exact rational values (`ℚ`); the power-law radius
  transform `u ** (-1/(alpha-1))` is real-valued (`ℝ`, via `Real.rpow`) and is
  rounded with NumPy's round-half-to-even rule (`npRound`).
* The NumPy `Generator` is modelled as a raw stream of uniform draws in `[0,1)`
  (`Rng.stream`) together with a cursor position; every vectorised sampling call
  consumes a contiguous block of raw draws and advances the cursor, which is
  exactly the "single shared stream" discipline of `np.random.default_rng`.
* Python exceptions (`ValueError` from `Generator.integers` with an empty
  range, `ZeroDivisionError` from `-1/(radius_alpha - 1)` or `0 ** negative`)
  are modelled with `Except`.
* `cv2.circle(img, (cx, cy), r, color, -1)` is an external collaborator; per
  the specification (§4.4) it fills every pixel whose squared distance to the
  center is at most `r²`, clipped to the canvas bounds (pixels outside the
  canvas are never read by the claims below).
-/

/-- RGB color value: a triple of exact rationals (one per channel). -/
abbrev Color := ℚ × ℚ × ℚ

/-- Scale a color by a scalar mask value (`buffer * is_not_covered_mask`
broadcasts the single mask channel over the three color channels). -/
def cscale (t : ℚ) (c : Color) : Color := (t * c.1, t * c.2.1, t * c.2.2)

@[simp] lemma cscale_one (c : Color) : cscale 1 c = c := by
  cases c with
  | mk a b => cases b with
    | mk b₁ b₂ => simp [cscale]

@[simp] lemma cscale_zero (c : Color) : cscale 0 c = (0 : Color) := by
  simp [cscale, Prod.ext_iff]

/-- `np.clip(x, 0, 1)` on one channel: raise to the lower bound 0, then cap
at the upper bound 1. -/
def clipQ (x : ℚ) : ℚ := if x ≤ 0 then 0 else if 1 ≤ x then 1 else x

lemma clipQ_nonneg (x : ℚ) : 0 ≤ clipQ x := by
  unfold clipQ
  by_cases h0 : x ≤ 0
  · rw [if_pos h0]
  · rw [if_neg h0]
    by_cases h1 : 1 ≤ x
    · rw [if_pos h1]
      norm_num
    · rw [if_neg h1]
      linarith [lt_of_not_le h0]

lemma clipQ_le_one (x : ℚ) : clipQ x ≤ 1 := by
  unfold clipQ
  by_cases h0 : x ≤ 0
  · rw [if_pos h0]
    norm_num
  · rw [if_neg h0]
    by_cases h1 : 1 ≤ x
    · rw [if_pos h1]
    · rw [if_neg h1]
      linarith [lt_of_not_le h1]

/-- `chart.clip(0, 1)` applied to one pixel. -/
def clipColor (c : Color) : Color := (clipQ c.1, clipQ c.2.1, clipQ c.2.2)

/-- Channel accessor for a color triple (channels 0, 1, 2). -/
def chan (c : Color) : ℕ → ℚ
  | 0 => c.1
  | 1 => c.2.1
  | 2 => c.2.2
  | _ + 3 => 0

lemma chan_clip_mem (c : Color) (k : ℕ) :
    0 ≤ chan (clipColor c) k ∧ chan (clipColor c) k ≤ 1 := by
  match k with
  | 0 => exact ⟨clipQ_nonneg _, clipQ_le_one _⟩
  | 1 => exact ⟨clipQ_nonneg _, clipQ_le_one _⟩
  | 2 => exact ⟨clipQ_nonneg _, clipQ_le_one _⟩
  | n + 3 => simp [chan]

/-! ## NumPy rounding (round half to even) -/

/-- NumPy's `ndarray.round()`: round to the nearest integer, rounding exact
halves to the even neighbour. -/
noncomputable def npRound (x : ℝ) : ℤ :=
  if Int.fract x = 1/2 then (if Even ⌊x⌋ then ⌊x⌋ else ⌊x⌋ + 1) else round x

lemma npRound_intCast (n : ℤ) : npRound (n : ℝ) = n := by
  unfold npRound
  rw [Int.fract_intCast]
  norm_num

lemma floor_le_npRound (x : ℝ) : ⌊x⌋ ≤ npRound x := by
  unfold npRound
  split
  · split
    · exact le_refl _
    · omega
  · rw [round_eq]
    exact Int.floor_le_floor (by linarith)

lemma npRound_le_floor_add_one (x : ℝ) : npRound x ≤ ⌊x⌋ + 1 := by
  unfold npRound
  split
  · split
    · omega
    · exact le_refl _
  · rw [round_eq]
    have h1 : x + 1/2 < (⌊x⌋ : ℝ) + 2 := by
      have := Int.lt_floor_add_one x
      linarith
    have h2 : ⌊x + 1/2⌋ < ⌊x⌋ + 2 := Int.floor_lt.mpr (by push_cast; linarith)
    omega

lemma npRound_mono {x y : ℝ} (hxy : x ≤ y) : npRound x ≤ npRound y := by
  rcases lt_or_eq_of_le (Int.floor_le_floor hxy) with hf | hf
  · calc npRound x ≤ ⌊x⌋ + 1 := npRound_le_floor_add_one x
      _ ≤ ⌊y⌋ := by omega
      _ ≤ npRound y := floor_le_npRound y
  · -- same floor
    unfold npRound
    by_cases htx : Int.fract x = 1/2 <;> by_cases hty : Int.fract y = 1/2
    · -- both exact halves with equal floors: x = y
      have : x = y := by
        have hx := Int.fract_add_floor x
        have hy := Int.fract_add_floor y
        rw [htx] at hx
        rw [hty] at hy
        rw [hf] at hx
        linarith
      simp [this, htx, hty]
    · -- x is a half, y is not: fract y > 1/2, so round y = ⌊y⌋ + 1
      rw [if_pos htx, if_neg hty]
      have hfy : 1/2 < Int.fract y := by
        have hx := Int.fract_add_floor x
        have hy := Int.fract_add_floor y
        rw [htx] at hx
        have : (1:ℝ)/2 ≤ Int.fract y := by
          rw [hf] at hx
          linarith
        exact lt_of_le_of_ne this (fun h => hty h.symm)
      have : round y = ⌊y⌋ + 1 := by
        rw [round_eq]
        have hy := Int.fract_add_floor y
        have hlt : Int.fract y < 1 := Int.fract_lt_one y
        have h1 : (⌊y⌋ : ℝ) + 1 ≤ y + 1/2 := by linarith
        have h2 : y + 1/2 < (⌊y⌋ : ℝ) + 2 := by linarith
        have hlow := Int.floor_le_floor (α := ℝ) h1
        rw [show ((⌊y⌋ : ℝ) + 1) = ((⌊y⌋ + 1 : ℤ) : ℝ) by push_cast; ring] at hlow
        rw [Int.floor_intCast] at hlow
        have hhigh : ⌊y + 1/2⌋ < ⌊y⌋ + 2 := Int.floor_lt.mpr (by push_cast; linarith)
        omega
      rw [this, hf]
      split <;> omega
  -- remaining: x not a half (y may or may not be)
    · rw [if_neg htx, if_pos hty]
      have hfx : Int.fract x < 1/2 := by
        have hx := Int.fract_add_floor x
        have hy := Int.fract_add_floor y
        rw [hty] at hy
        have : Int.fract x ≤ 1/2 := by
          rw [hf] at hx
          linarith
        exact lt_of_le_of_ne this htx
      have : round x = ⌊x⌋ := by
        rw [round_eq]
        have hx := Int.fract_add_floor x
        have h0 : 0 ≤ Int.fract x := Int.fract_nonneg x
        have h1 : (⌊x⌋ : ℝ) ≤ x + 1/2 := by linarith
        have h2 : x + 1/2 < (⌊x⌋ : ℝ) + 1 := by linarith
        have hlow := Int.floor_le_floor (α := ℝ) h1
        rw [Int.floor_intCast] at hlow
        have hhigh : ⌊x + 1/2⌋ < ⌊x⌋ + 1 := Int.floor_lt.mpr (by push_cast; linarith)
        omega
      rw [this, hf]
      split <;> omega
    · rw [if_neg htx, if_neg hty, round_eq, round_eq]
      exact Int.floor_le_floor (by linarith)

lemma npRound_nonneg {x : ℝ} (hx : 0 ≤ x) : 0 ≤ npRound x := by
  have := floor_le_npRound x
  have h0 : (0 : ℤ) ≤ ⌊x⌋ := by
    rw [show (0:ℤ) = ⌊(0:ℝ)⌋ by norm_num]
    exact Int.floor_le_floor hx
  omega

/-! ## Circles and rasterization -/

/-- One sampled circle: `(center_x[i], center_y[i])`, `radius[i]`, `color[i]`. -/
structure CircleDesc where
  cx : ℤ
  cy : ℤ
  r : ℤ
  color : Color

/-- Modelled from the spec: `cv2.circle(img, (cx, cy), r, color, -1)` (an
external collaborator, not part of this repository) fills every pixel whose
squared distance from the center is at most `r²` (spec §4.4); clipping to the
canvas bounds is irrelevant for the in-canvas pixels the claims quantify
over. -/
def covers (c : CircleDesc) (x y : ℤ) : Prop := (x - c.cx) ^ 2 + (y - c.cy) ^ 2 ≤ c.r ^ 2

instance (c : CircleDesc) (x y : ℤ) : Decidable (covers c x y) :=
  inferInstanceAs (Decidable ((x - c.cx) ^ 2 + (y - c.cy) ^ 2 ≤ c.r ^ 2))

/-- Paint a filled disk onto a 3-channel buffer (in place in the source). -/
def paintC (c : CircleDesc) (buf : ℕ → ℕ → Color) : ℕ → ℕ → Color :=
  fun y x => if covers c (x : ℤ) (y : ℤ) then c.color else buf y x

/-- Stamp zero onto the single-channel coverage mask
(`cv2.circle(is_not_covered_mask, center, radius, 0, -1)`). -/
def paintM (c : CircleDesc) (m : ℕ → ℕ → ℚ) : ℕ → ℕ → ℚ :=
  fun y x => if covers c (x : ℤ) (y : ℤ) then 0 else m y x

/-- `np.any(is_not_covered_mask)` over the `h × w` canvas. -/
def maskAny (h w : ℕ) (m : ℕ → ℕ → ℚ) : Bool :=
  (List.range h).any fun y => (List.range w).any fun x => decide (m y x ≠ 0)

lemma maskAny_eq_false_iff (h w : ℕ) (m : ℕ → ℕ → ℚ) :
    maskAny h w m = false ↔ ∀ y < h, ∀ x < w, m y x = 0 := by
  unfold maskAny
  simp [List.any_eq_true, List.mem_range]

/-! ## The reverse-mode compositing loop -/

/-- Mutable state of one reverse-mode iteration: the accumulated `chart`, the
persistent circle `buffer` (never cleared between iterations in the source),
and the `is_not_covered_mask`. -/
structure RState where
  chart : ℕ → ℕ → Color
  buffer : ℕ → ℕ → Color
  mask : ℕ → ℕ → ℚ

/-- One iteration of the reverse-mode loop body:
`cv2.circle(buffer, …)`; `chart += buffer * is_not_covered_mask`;
`is_not_covered_mask = cv2.circle(is_not_covered_mask, …, 0, -1)`. -/
def reverseStep (c : CircleDesc) (s : RState) : RState :=
  let buffer' := paintC c s.buffer
  { chart := fun y x => s.chart y x + cscale (s.mask y x) (buffer' y x)
    buffer := buffer'
    mask := paintM c s.mask }

/-- The reverse-mode loop over circles `i, i+1, …, i+n-1`.  When `ee` is set
the source's early exit (`if not np.any(is_not_covered_mask): break`) is
active; `ee = false` is the comparison variant with the check removed. -/
def reverseLoop (h w : ℕ) (ee : Bool) (cir : ℕ → CircleDesc) : ℕ → ℕ → RState → RState
  | _, 0, s => s
  | i, n + 1, s =>
    let s' := reverseStep (cir i) s
    if ee && !maskAny h w s'.mask then s'
    else reverseLoop h w ee cir (i + 1) n s'

/-- The initial reverse-mode state: zero chart, zero buffer, all-ones mask. -/
def rInit : RState :=
  { chart := fun _ _ => (0 : Color), buffer := fun _ _ => (0 : Color), mask := fun _ _ => 1 }

/-- Reverse-mode compositing of `n` circles, including the final
`chart += background * ones * is_not_covered_mask`. -/
def reverseChart (h w : ℕ) (ee : Bool) (cir : ℕ → CircleDesc) (n : ℕ) (bg : Color) :
    ℕ → ℕ → Color :=
  let s := reverseLoop h w ee cir 0 n rInit
  fun y x => s.chart y x + cscale (s.mask y x) bg

/-! ## The forward-mode compositing loop -/

/-- Forward mode: paint every circle in order onto the chart in place. -/
def forwardLoop (cir : ℕ → CircleDesc) : ℕ → ℕ → (ℕ → ℕ → Color) → ℕ → ℕ → Color
  | _, 0, ch => ch
  | i, n + 1, ch => forwardLoop cir (i + 1) n (paintC (cir i) ch)

/-- Forward-mode compositing of `n` circles over a background-filled canvas. -/
def forwardChart (cir : ℕ → CircleDesc) (n : ℕ) (bg : Color) : ℕ → ℕ → Color :=
  forwardLoop cir 0 n (fun _ _ => bg)

/-! ## Cover search -/

/-- Index of the first circle among `i, …, i+n-1` covering pixel `(x, y)`. -/
def firstCoverIdx (cir : ℕ → CircleDesc) (x y : ℤ) : ℕ → ℕ → Option ℕ
  | _, 0 => none
  | i, n + 1 => if covers (cir i) x y then some i else firstCoverIdx cir x y (i + 1) n

/-- Index of the last circle among `i, …, i+n-1` covering pixel `(x, y)`. -/
def lastCoverIdx (cir : ℕ → CircleDesc) (x y : ℤ) : ℕ → ℕ → Option ℕ
  | _, 0 => none
  | i, n + 1 =>
    match lastCoverIdx cir x y (i + 1) n with
    | some j => some j
    | none => if covers (cir i) x y then some i else none

/-! ## Per-pixel analysis of the compositing loops -/

lemma reverseLoop_false_succ (h w : ℕ) (cir : ℕ → CircleDesc) (i n : ℕ) (s : RState) :
    reverseLoop h w false cir i (n + 1) s =
      reverseLoop h w false cir (i + 1) n (reverseStep (cir i) s) := by
  simp [reverseLoop]

lemma reverseLoop_mask (h w : ℕ) (cir : ℕ → CircleDesc) (y x : ℕ) :
    ∀ n i (s : RState),
      (reverseLoop h w false cir i n s).mask y x =
        if (firstCoverIdx cir (x : ℤ) (y : ℤ) i n).isSome then 0 else s.mask y x := by
  intro n
  induction n with
  | zero => intro i s; simp [reverseLoop, firstCoverIdx]
  | succ n ih =>
    intro i s
    rw [reverseLoop_false_succ, ih]
    by_cases hc : covers (cir i) (x : ℤ) (y : ℤ)
    · have hfst : firstCoverIdx cir (x : ℤ) (y : ℤ) i (n + 1) = some i := by
        simp [firstCoverIdx, hc]
      rw [hfst]
      simp only [reverseStep, paintM, Option.isSome_some, if_true, if_pos hc]
      split <;> rfl
    · have hfst : firstCoverIdx cir (x : ℤ) (y : ℤ) i (n + 1) =
          firstCoverIdx cir (x : ℤ) (y : ℤ) (i + 1) n := by
        simp [firstCoverIdx, hc]
      rw [hfst]
      simp only [reverseStep, paintM, if_neg hc]

lemma reverseLoop_chart (h w : ℕ) (cir : ℕ → CircleDesc) (y x : ℕ) :
    ∀ n i (s : RState),
      s.mask y x = 0 ∨ (s.mask y x = 1 ∧ s.buffer y x = 0) →
      (reverseLoop h w false cir i n s).chart y x =
        if s.mask y x = 0 then s.chart y x
        else
          match firstCoverIdx cir (x : ℤ) (y : ℤ) i n with
          | some j => s.chart y x + (cir j).color
          | none => s.chart y x := by
  intro n
  induction n with
  | zero =>
    intro i s _
    simp only [reverseLoop, firstCoverIdx]
    split <;> rfl
  | succ n ih =>
    intro i s hm
    rw [reverseLoop_false_succ]
    rcases hm with hm0 | ⟨hm1, hb0⟩
    · -- pixel already decided: the step adds nothing and keeps the mask at 0
      have hm0' : (reverseStep (cir i) s).mask y x = 0 := by
        simp [reverseStep, paintM, hm0]
      rw [ih (i + 1) (reverseStep (cir i) s) (Or.inl hm0'), if_pos hm0', if_pos hm0]
      simp [reverseStep, hm0]
    · by_cases hc : covers (cir i) (x : ℤ) (y : ℤ)
      · -- circle i is the first to cover the pixel: its color is committed
        have hm0' : (reverseStep (cir i) s).mask y x = 0 := by
          simp [reverseStep, paintM, if_pos hc]
        rw [ih (i + 1) (reverseStep (cir i) s) (Or.inl hm0'), if_pos hm0']
        have hfst : firstCoverIdx cir (x : ℤ) (y : ℤ) i (n + 1) = some i := by
          simp [firstCoverIdx, hc]
        rw [if_neg (by rw [hm1]; norm_num), hfst]
        simp [reverseStep, paintC, if_pos hc, hm1]
      · -- untouched pixel: state is unchanged at this pixel
        have hmask' : (reverseStep (cir i) s).mask y x = 1 := by
          simp [reverseStep, paintM, if_neg hc, hm1]
        have hbuf' : (reverseStep (cir i) s).buffer y x = 0 := by
          simp [reverseStep, paintC, if_neg hc, hb0]
        have hchart' : (reverseStep (cir i) s).chart y x = s.chart y x := by
          simp [reverseStep, paintC, if_neg hc, hb0, hm1]
        rw [ih (i + 1) (reverseStep (cir i) s) (Or.inr ⟨hmask', hbuf'⟩)]
        have hfst : firstCoverIdx cir (x : ℤ) (y : ℤ) i (n + 1) =
            firstCoverIdx cir (x : ℤ) (y : ℤ) (i + 1) n := by
          simp [firstCoverIdx, hc]
        rw [if_neg (by rw [hmask']; norm_num), if_neg (by rw [hm1]; norm_num), hfst, hchart']

lemma reverseLoop_chart_of_mask_zero (h w : ℕ) (cir : ℕ → CircleDesc) (y x n i : ℕ)
    (s : RState) (h0 : s.mask y x = 0) :
    (reverseLoop h w false cir i n s).chart y x = s.chart y x := by
  rw [reverseLoop_chart h w cir y x n i s (Or.inl h0), if_pos h0]

lemma reverseLoop_mask_of_mask_zero (h w : ℕ) (cir : ℕ → CircleDesc) (y x n i : ℕ)
    (s : RState) (h0 : s.mask y x = 0) :
    (reverseLoop h w false cir i n s).mask y x = 0 := by
  rw [reverseLoop_mask h w cir y x n i s, h0]
  split <;> rfl

lemma reverseLoop_true_succ (h w : ℕ) (cir : ℕ → CircleDesc) (i n : ℕ) (s : RState) :
    reverseLoop h w true cir i (n + 1) s =
      if !maskAny h w (reverseStep (cir i) s).mask then reverseStep (cir i) s
      else reverseLoop h w true cir (i + 1) n (reverseStep (cir i) s) := by
  simp [reverseLoop]

/-- The early exit never changes the state at an in-canvas pixel. -/
lemma reverseLoop_ee_agree (h w : ℕ) (cir : ℕ → CircleDesc) (y x : ℕ)
    (hy : y < h) (hx : x < w) :
    ∀ n i (s : RState),
      (reverseLoop h w true cir i n s).chart y x =
          (reverseLoop h w false cir i n s).chart y x ∧
      (reverseLoop h w true cir i n s).mask y x =
          (reverseLoop h w false cir i n s).mask y x := by
  intro n
  induction n with
  | zero => intro i s; exact ⟨rfl, rfl⟩
  | succ n ih =>
    intro i s
    rw [reverseLoop_false_succ, reverseLoop_true_succ]
    rcases hma : maskAny h w (reverseStep (cir i) s).mask with _ | _
    · -- the mask is all zero on the canvas: the loop body is a no-op from here on
      have hz : (reverseStep (cir i) s).mask y x = 0 :=
        (maskAny_eq_false_iff h w _).mp hma y hy x hx
      simp only [Bool.not_false, if_true]
      exact ⟨(reverseLoop_chart_of_mask_zero h w cir y x n (i + 1) _ hz).symm,
        by rw [reverseLoop_mask_of_mask_zero h w cir y x n (i + 1) _ hz, hz]⟩
    · simp only [Bool.not_true, if_false]
      exact ih (i + 1) (reverseStep (cir i) s)

/-- Early-exit equivalence for the full reverse-mode output. -/
lemma reverseChart_ee_eq (h w : ℕ) (cir : ℕ → CircleDesc) (n : ℕ) (bg : Color)
    (y x : ℕ) (hy : y < h) (hx : x < w) :
    reverseChart h w true cir n bg y x = reverseChart h w false cir n bg y x := by
  obtain ⟨hc, hm⟩ := reverseLoop_ee_agree h w cir y x hy hx n 0 rInit
  simp only [reverseChart, hc, hm]

/-- Reverse mode computes first-in-list-wins occlusion. -/
lemma reverseChart_eq_firstCover (h w : ℕ) (cir : ℕ → CircleDesc) (n : ℕ) (bg : Color)
    (y x : ℕ) (hy : y < h) (hx : x < w) :
    reverseChart h w true cir n bg y x =
      match firstCoverIdx cir (x : ℤ) (y : ℤ) 0 n with
      | some j => (cir j).color
      | none => bg := by
  rw [reverseChart_ee_eq h w cir n bg y x hy hx]
  unfold reverseChart
  rw [reverseLoop_chart h w cir y x n 0 rInit (Or.inr ⟨rfl, rfl⟩),
    reverseLoop_mask h w cir y x n 0 rInit]
  have h1 : (rInit.mask y x) = 1 := rfl
  rw [if_neg (by rw [h1]; norm_num)]
  rcases hfst : firstCoverIdx cir (x : ℤ) (y : ℤ) 0 n with _ | j
  · simp [rInit]
  · simp [rInit]

/-- Forward mode computes last-in-list-wins occlusion over the initial canvas. -/
lemma forwardLoop_eq_lastCover (cir : ℕ → CircleDesc) (y x : ℕ) :
    ∀ n i (ch : ℕ → ℕ → Color),
      forwardLoop cir i n ch y x =
        match lastCoverIdx cir (x : ℤ) (y : ℤ) i n with
        | some j => (cir j).color
        | none => ch y x := by
  intro n
  induction n with
  | zero => intro i ch; rfl
  | succ n ih =>
    intro i ch
    show forwardLoop cir (i + 1) n (paintC (cir i) ch) y x = _
    rw [ih (i + 1) (paintC (cir i) ch)]
    show _ = (match lastCoverIdx cir (x : ℤ) (y : ℤ) i (n + 1) with
      | some j => (cir j).color
      | none => ch y x)
    rcases hlast : lastCoverIdx cir (x : ℤ) (y : ℤ) (i + 1) n with _ | j
    · simp only [lastCoverIdx, hlast, paintC]
      by_cases hc : covers (cir i) (x : ℤ) (y : ℤ) <;> simp [hc]
    · simp only [lastCoverIdx, hlast]

lemma forwardChart_eq_lastCover (cir : ℕ → CircleDesc) (n : ℕ) (bg : Color) (y x : ℕ) :
    forwardChart cir n bg y x =
      match lastCoverIdx cir (x : ℤ) (y : ℤ) 0 n with
      | some j => (cir j).color
      | none => bg := by
  unfold forwardChart
  rw [forwardLoop_eq_lastCover cir y x n 0 (fun _ _ => bg)]

/-! ## The random number generator -/

/-- `np.random.default_rng(...)`: a deterministic stream of raw uniform draws
in `[0,1)` with a cursor.  Every sampling call consumes a contiguous block of
raw draws and advances the cursor, so all samplers share one stream. -/
structure Rng where
  stream : ℕ → ℚ
  pos : ℕ

/-- `np.random.default_rng(np.random.SeedSequence(seed))`: the map from seed
to raw stream (`seedSequence`, an abstraction of PCG64) is deterministic. -/
def mkRng (seedSequence : ℤ → ℕ → ℚ) (seed : ℤ) : Rng := ⟨seedSequence seed, 0⟩

/-- Python exceptions that the generator can raise. -/
inductive PyErr where
  | valueError
  | zeroDivision
deriving DecidableEq

/-- One uniform draw on `[lo, hi)` from the raw draw `t`:
`lo + t * (hi - lo)` (NumPy `Generator.uniform`; when `lo > hi` the value
falls between `hi` and `lo`, with no error raised). -/
def uniformAt (lo hi t : ℚ) : ℚ := lo + t * (hi - lo)

/-- `rng.integers(lo, hi, size=n)`: `n` uniform integers in `[lo, hi)`;
NumPy raises `ValueError: low >= high` whenever `hi ≤ lo`, for any `n`. -/
def rngIntegers (g : Rng) (lo hi : ℤ) (n : ℕ) : Except PyErr ((ℕ → ℤ) × Rng) :=
  if hi ≤ lo then .error .valueError
  else .ok (fun i => lo + ⌊g.stream (g.pos + i) * ((hi : ℚ) - lo)⌋, ⟨g.stream, g.pos + n⟩)

/-- `rng.uniform(lo, hi, size=n)`. -/
def rngUniform (g : Rng) (lo hi : ℚ) (n : ℕ) : (ℕ → ℚ) × Rng :=
  (fun i => uniformAt lo hi (g.stream (g.pos + i)), ⟨g.stream, g.pos + n⟩)

/-! ## Radius sampling -/

/-- Python float `b ** e` for integer `e`; `0 ** e` with `e < 0` raises
`ZeroDivisionError`. -/
def qzpow (b : ℚ) (e : ℤ) : Except PyErr ℚ :=
  if b = 0 ∧ e < 0 then .error .zeroDivision else .ok (b ^ e)

/-- The change-of-variables exponent `-1/(radius_alpha - 1)` from the source
(a Python true division of exact integers). -/
def radiusExponentQ (alpha : ℤ) : ℚ := -1 / ((alpha : ℚ) - 1)

/-- One sampled radius: `(u ** (-1/(radius_alpha - 1))).round().astype(int)`. -/
noncomputable def radiusOf (alpha : ℤ) (u : ℚ) : ℤ :=
  npRound ((u : ℝ) ^ ((radiusExponentQ alpha : ℚ) : ℝ))

/-! ## Color sampling -/

/-- Modelled from the spec: `sample_rgb_values` lives in
`rstor/synthetic_data/color_sampler.py`, which is not among the provided
sources; per the spec (§2, §6) it maps `(count, seed)` deterministically to
`count` RGB triples with every channel in `[0, 1]`; its internal distribution
is explicitly out of scope. -/
def sample_rgb_values (count : ℕ) (seed : ℤ) (i : ℕ) : Color :=
  ((((seed + i).natAbs % 256 + count % 1 : ℕ) : ℚ) / 255,
   (((seed + 2 * i).natAbs % 256 : ℕ) : ℚ) / 255,
   (((seed + 3 * i).natAbs % 256 : ℕ) : ℚ) / 255)

/-! ## Generation parameters and output buffer -/

/-- The arguments of `dead_leaves_chart` (the seed is supplied separately via
`mkRng`). -/
structure Params where
  h : ℤ
  w : ℤ
  number_of_circles : ℤ
  background_color : Color
  colored : Bool
  radius_min : ℚ
  radius_max : ℚ
  radius_alpha : ℤ
  reverse : Bool

/-- `if number_of_circles < 0: number_of_circles = 30 * max(size)`. -/
def resolvedCircles (p : Params) : ℤ :=
  if p.number_of_circles < 0 then 30 * max p.h p.w else p.number_of_circles

/-- `if radius_min < 0.: radius_min = 1.`. -/
def resolvedRadiusMin (p : Params) : ℚ := if p.radius_min < 0 then 1 else p.radius_min

/-- `if radius_max < 0.: radius_max = 2000.`. -/
def resolvedRadiusMax (p : Params) : ℚ := if p.radius_max < 0 then 2000 else p.radius_max

/-- The returned pixel buffer: `height × width` with `channels` channels. -/
structure Output where
  height : ℕ
  width : ℕ
  channels : ℕ
  data : ℕ → ℕ → ℕ → ℚ

/-- `chart = chart.clip(0, 1)` followed by `chart[:, :, 0, None]` in gray
mode: three channels when colored, the single channel 0 otherwise. -/
def finalize (colored : Bool) (h w : ℕ) (chart : ℕ → ℕ → Color) : Output :=
  if colored then ⟨h, w, 3, fun y x k => chan (clipColor (chart y x)) k⟩
  else ⟨h, w, 1, fun y x _ => (clipColor (chart y x)).1⟩

/-! ## The generation pipeline -/

/-- The geometry-sampling prefix of `dead_leaves_chart`: circle centers
(`rng.integers` over `[0, size[1])` and `[0, size[0])`) and power-law radii
(`rng.uniform` between `radius_max**(1-alpha)` and `radius_min**(1-alpha)`,
then `u ** (-1/(alpha-1))`, rounded).  Note that with `radius_alpha = 1` the
`ZeroDivisionError` from `-1/(radius_alpha - 1)` is raised only after the
uniform draws have been consumed, exactly as in the source. -/
noncomputable def sampleGeometry (p : Params) (g0 : Rng) :
    Except PyErr ((ℕ → ℤ) × (ℕ → ℤ) × (ℕ → ℤ) × Rng) :=
  let n := (resolvedCircles p).toNat
  match rngIntegers g0 0 p.w n with
  | .error e => .error e
  | .ok (center_x, g1) =>
    match rngIntegers g1 0 p.h n with
    | .error e => .error e
    | .ok (center_y, g2) =>
      match qzpow (resolvedRadiusMax p) (1 - p.radius_alpha) with
      | .error e => .error e
      | .ok lowv =>
        match qzpow (resolvedRadiusMin p) (1 - p.radius_alpha) with
        | .error e => .error e
        | .ok highv =>
          let (us, g3) := rngUniform g2 lowv highv n
          if p.radius_alpha = 1 then .error .zeroDivision
          else .ok (center_x, center_y, fun i => radiusOf p.radius_alpha (us i), g3)

/-- The color-sampling stage: `sample_rgb_values(n, seed=rng.integers(0, 1e10))`
when colored, otherwise a replicated gray draw from `rng.uniform(0.25, 0.75)`.
Also returns the sub-seed forwarded to the external color sampler. -/
def sampleColorsStage (p : Params) (n : ℕ) (g : Rng) :
    Except PyErr ((ℕ → Color) × Rng × Option ℤ) :=
  if p.colored then
    match rngIntegers g 0 (10 ^ 10) 1 with
    | .error e => .error e
    | .ok (sub, g') => .ok (fun i => sample_rgb_values n (sub 0) i, g', some (sub 0))
  else
    let (v, g') := rngUniform g (1/4) (3/4) n
    .ok (fun i => (v i, v i, v i), g', none)

/-- The full `dead_leaves_chart` generation entry point. -/
noncomputable def dead_leaves_chart (p : Params) (g0 : Rng) : Except PyErr Output :=
  let n := (resolvedCircles p).toNat
  match sampleGeometry p g0 with
  | .error e => .error e
  | .ok (center_x, center_y, radius, g3) =>
    match sampleColorsStage p n g3 with
    | .error e => .error e
    | .ok (color, _, _) =>
      let cir : ℕ → CircleDesc := fun i => ⟨center_x i, center_y i, radius i, color i⟩
      let chart :=
        if p.reverse then reverseChart p.h.toNat p.w.toNat true cir n p.background_color
        else forwardChart cir n p.background_color
      .ok (finalize p.colored p.h.toNat p.w.toNat chart)

/-- The sub-seed the color sampler receives in a given generation run. -/
noncomputable def colorSubseed (p : Params) (g0 : Rng) : Except PyErr (Option ℤ) :=
  match sampleGeometry p g0 with
  | .error e => .error e
  | .ok (_, _, _, g3) =>
    match sampleColorsStage p (resolvedCircles p).toNat g3 with
    | .error e => .error e
    | .ok (_, _, sub) => .ok sub

/-- Observe one channel of one pixel of a generation result. -/
def pixelData (r : Except PyErr Output) (y x k : ℕ) : Option ℚ :=
  match r with
  | .error _ => none
  | .ok o => some (o.data y x k)

/-! ## Analysis of the radius transform -/

lemma uniformAt_between {lo hi t : ℚ} (h0 : 0 ≤ t) (h1 : t ≤ 1) :
    min lo hi ≤ uniformAt lo hi t ∧ uniformAt lo hi t ≤ max lo hi := by
  unfold uniformAt
  rcases le_total lo hi with hlh | hlh
  · rw [min_eq_left hlh, max_eq_right hlh]
    constructor <;> nlinarith
  · rw [min_eq_right hlh, max_eq_left hlh]
    constructor <;> nlinarith

lemma radiusExponentQ_cast (alpha : ℤ) :
    ((radiusExponentQ alpha : ℚ) : ℝ) = -1 / ((alpha : ℝ) - 1) := by
  unfold radiusExponentQ
  push_cast
  ring

/-- The code's exponent `-1/(radius_alpha - 1)` equals `1/(1 - alpha)`. -/
lemma radiusExponentQ_eq (alpha : ℤ) (hα : alpha ≠ 1) :
    ((radiusExponentQ alpha : ℚ) : ℝ) = 1 / (1 - (alpha : ℝ)) := by
  rw [radiusExponentQ_cast]
  have h1 : (alpha : ℝ) - 1 ≠ 0 := by
    intro hc
    apply hα
    have : (alpha : ℝ) = 1 := by linarith
    exact_mod_cast this
  have h2 : 1 - (alpha : ℝ) ≠ 0 := by
    intro hc
    apply h1
    linarith
  field_simp

/-- Undoing the endpoint transform: `(r ** (1-alpha)) ** (-1/(alpha-1)) = r`
for a positive base. -/
lemma endpoint_rpow_eq {r : ℚ} (hr : 0 < r) {alpha : ℤ} (hα : alpha ≠ 1) :
    ((r ^ (1 - alpha) : ℚ) : ℝ) ^ ((radiusExponentQ alpha : ℚ) : ℝ) = (r : ℝ) := by
  have hrR : (0 : ℝ) < (r : ℝ) := by exact_mod_cast hr
  have hcast : ((r ^ (1 - alpha) : ℚ) : ℝ) = (r : ℝ) ^ (((1 - alpha : ℤ)) : ℝ) := by
    rw [Real.rpow_intCast]
    push_cast
    ring
  rw [hcast, ← Real.rpow_mul (le_of_lt hrR)]
  have ha1 : (alpha : ℝ) - 1 ≠ 0 := by
    intro hc
    apply hα
    have : (alpha : ℝ) = 1 := by linarith
    exact_mod_cast this
  have hexp : (((1 - alpha : ℤ)) : ℝ) * ((radiusExponentQ alpha : ℚ) : ℝ) = 1 := by
    rw [radiusExponentQ_cast]
    push_cast
    field_simp
  rw [hexp, Real.rpow_one]

lemma radiusExponentQ_cast_ne_zero (alpha : ℤ) (hα : alpha ≠ 1) :
    ((radiusExponentQ alpha : ℚ) : ℝ) ≠ 0 := by
  rw [radiusExponentQ_cast]
  have ha1 : (alpha : ℝ) - 1 ≠ 0 := by
    intro hc
    apply hα
    have : (alpha : ℝ) = 1 := by linarith
    exact_mod_cast this
  exact div_ne_zero (by norm_num) ha1

/-- Any uniform draw between the two transformed endpoints maps back into
`[radius_min, radius_max]` under the inverse-CDF transform. -/
lemma radius_rpow_bounds {rmin rmax : ℚ} {alpha : ℤ} (hmin : 0 < rmin)
    (hle : rmin ≤ rmax) (hα : alpha ≠ 1) {u : ℚ}
    (hlo : min (rmax ^ (1 - alpha)) (rmin ^ (1 - alpha)) ≤ u)
    (hhi : u ≤ max (rmax ^ (1 - alpha)) (rmin ^ (1 - alpha))) :
    (rmin : ℝ) ≤ (u : ℝ) ^ ((radiusExponentQ alpha : ℚ) : ℝ) ∧
      (u : ℝ) ^ ((radiusExponentQ alpha : ℚ) : ℝ) ≤ (rmax : ℝ) := by
  have hmax : (0 : ℚ) < rmax := lt_of_lt_of_le hmin hle
  set L : ℝ := ((rmax ^ (1 - alpha) : ℚ) : ℝ) with hL
  set H : ℝ := ((rmin ^ (1 - alpha) : ℚ) : ℝ) with hH
  set e : ℝ := ((radiusExponentQ alpha : ℚ) : ℝ) with he
  have hLpos : (0 : ℝ) < L := by
    rw [hL]
    exact_mod_cast zpow_pos hmax (1 - alpha)
  have hHpos : (0 : ℝ) < H := by
    rw [hH]
    exact_mod_cast zpow_pos hmin (1 - alpha)
  have hLe : L ^ e = (rmax : ℝ) := endpoint_rpow_eq hmax hα
  have hHe : H ^ e = (rmin : ℝ) := endpoint_rpow_eq hmin hα
  have hloR : min L H ≤ (u : ℝ) := by
    rw [hL, hH, ← Rat.cast_min]
    exact_mod_cast hlo
  have hhiR : (u : ℝ) ≤ max L H := by
    rw [hL, hH, ← Rat.cast_max]
    exact_mod_cast hhi
  have hminpos : (0 : ℝ) < min L H := lt_min hLpos hHpos
  have hupos : (0 : ℝ) < (u : ℝ) := lt_of_lt_of_le hminpos hloR
  have hrminmax : (rmin : ℝ) ≤ (rmax : ℝ) := by exact_mod_cast hle
  rcases lt_trichotomy e 0 with hesign | hesign | hesign
  · -- negative exponent: the transform is antitone in the base
    constructor
    · have h1 : (max L H) ^ e ≤ (u : ℝ) ^ e :=
        Real.rpow_le_rpow_of_nonpos hupos hhiR (le_of_lt hesign)
      rcases max_choice L H with hm | hm <;> rw [hm] at h1
      · rw [hLe] at h1
        exact le_trans hrminmax h1
      · rw [hHe] at h1
        exact h1
    · have h1 : (u : ℝ) ^ e ≤ (min L H) ^ e :=
        Real.rpow_le_rpow_of_nonpos hminpos hloR (le_of_lt hesign)
      rcases min_choice L H with hm | hm <;> rw [hm] at h1
      · rw [hLe] at h1
        exact h1
      · rw [hHe] at h1
        exact le_trans h1 hrminmax
  · exact absurd hesign (radiusExponentQ_cast_ne_zero alpha hα)
  · -- positive exponent: the transform is monotone in the base
    constructor
    · have h1 : (min L H) ^ e ≤ (u : ℝ) ^ e :=
        Real.rpow_le_rpow (le_of_lt hminpos) hloR (le_of_lt hesign)
      rcases min_choice L H with hm | hm <;> rw [hm] at h1
      · rw [hLe] at h1
        exact le_trans hrminmax h1
      · rw [hHe] at h1
        exact h1
    · have h1 : (u : ℝ) ^ e ≤ (max L H) ^ e :=
        Real.rpow_le_rpow (le_of_lt hupos) hhiR (le_of_lt hesign)
      rcases max_choice L H with hm | hm <;> rw [hm] at h1
      · rw [hLe] at h1
        exact h1
      · rw [hHe] at h1
        exact le_trans h1 hrminmax

/-! ## Characterization of a successful geometry-sampling stage -/

lemma sampleGeometry_ok (p : Params) (g : Rng) (hw : 0 < p.w) (hh : 0 < p.h)
    (hα : p.radius_alpha ≠ 1) (hmaxne : resolvedRadiusMax p ≠ 0)
    (hminne : resolvedRadiusMin p ≠ 0) :
    sampleGeometry p g =
      .ok (fun i => ⌊g.stream (g.pos + i) * (p.w : ℚ)⌋,
           fun i => ⌊g.stream (g.pos + (resolvedCircles p).toNat + i) * (p.h : ℚ)⌋,
           fun i => radiusOf p.radius_alpha
             (uniformAt ((resolvedRadiusMax p) ^ (1 - p.radius_alpha))
               ((resolvedRadiusMin p) ^ (1 - p.radius_alpha))
               (g.stream (g.pos + (resolvedCircles p).toNat + (resolvedCircles p).toNat + i))),
           ⟨g.stream, g.pos + (resolvedCircles p).toNat + (resolvedCircles p).toNat
              + (resolvedCircles p).toNat⟩) := by
  unfold sampleGeometry rngIntegers qzpow rngUniform
  simp only [if_neg (show ¬ p.w ≤ 0 by omega), if_neg (show ¬ p.h ≤ 0 by omega),
    if_neg (show ¬ (resolvedRadiusMax p = 0 ∧ 1 - p.radius_alpha < 0) from
      fun hc => hmaxne hc.1),
    if_neg (show ¬ (resolvedRadiusMin p = 0 ∧ 1 - p.radius_alpha < 0) from
      fun hc => hminne hc.1), if_neg hα]
  simp [uniformAt]

/-- The radius transform exactly as the spec words it: set
`r = u ** (1/(1-alpha))` and round to the nearest integer. -/
noncomputable def specRadius (alpha : ℤ) (u : ℚ) : ℤ :=
  npRound ((u : ℝ) ^ (1 / (1 - (alpha : ℝ))))

lemma radiusOf_eq_specRadius (alpha : ℤ) (hα : alpha ≠ 1) (u : ℚ) :
    radiusOf alpha u = specRadius alpha u := by
  unfold radiusOf specRadius
  rw [radiusExponentQ_eq alpha hα]

/-! ## Claims -/

/-- C1: in reverse mode every in-canvas pixel's final color is the color of
the first circle in list order whose disk covers it (the background color if
no circle covers it); in forward mode it is the color of the last covering
circle in list order (the background color if none). -/
theorem C1_occlusion_correctness (h w : ℕ) (cir : ℕ → CircleDesc) (n : ℕ) (bg : Color)
    (y x : ℕ) (hy : y < h) (hx : x < w) :
    reverseChart h w true cir n bg y x =
      (match firstCoverIdx cir (x : ℤ) (y : ℤ) 0 n with
       | some j => (cir j).color
       | none => bg) ∧
    forwardChart cir n bg y x =
      (match lastCoverIdx cir (x : ℤ) (y : ℤ) 0 n with
       | some j => (cir j).color
       | none => bg) :=
  ⟨reverseChart_eq_firstCover h w cir n bg y x hy hx,
   forwardChart_eq_lastCover cir n bg y x⟩

/-- A two-circle scene for the occlusion witness: both circles cover pixel
`(0,0)`; circle 0 is red, circle 1 is blue. -/
def cirPairW : ℕ → CircleDesc
  | 0 => ⟨0, 0, 1, (1, 0, 0)⟩
  | _ + 1 => ⟨0, 0, 2, (0, 0, 1)⟩

/-- Witness for C1 at a concrete scene: first-in-list red wins in reverse
mode, last-in-list blue wins in forward mode. -/
theorem C1_occlusion_correctness_witness :
    (0 < 1 ∧ 0 < 1) ∧
    reverseChart 1 1 true cirPairW 2 (1/2, 1/2, 1/2) 0 0 = (1, 0, 0) ∧
    forwardChart cirPairW 2 (1/2, 1/2, 1/2) 0 0 = (0, 0, 1) := by
  refine ⟨⟨Nat.one_pos, Nat.one_pos⟩, ?_, ?_⟩
  · rw [(C1_occlusion_correctness 1 1 cirPairW 2 (1/2, 1/2, 1/2) 0 0
      Nat.one_pos Nat.one_pos).1]
    decide
  · rw [(C1_occlusion_correctness 1 1 cirPairW 2 (1/2, 1/2, 1/2) 0 0
      Nat.one_pos Nat.one_pos).2]
    decide

/-- C4: on every in-canvas pixel the reverse-mode loop with the early-exit
check produces the same final canvas as the loop with the check removed. -/
theorem C4_early_exit_equivalence (h w : ℕ) (cir : ℕ → CircleDesc) (n : ℕ)
    (bg : Color) (y x : ℕ) (hy : y < h) (hx : x < w) :
    reverseChart h w true cir n bg y x = reverseChart h w false cir n bg y x :=
  reverseChart_ee_eq h w cir n bg y x hy hx

/-- Witness for C4: a scene where the early exit actually fires after the
first of three circles. -/
theorem C4_early_exit_equivalence_witness :
    (0 < 1 ∧ 0 < 1) ∧
    reverseChart 1 1 true cirPairW 3 (0, 0, 0) 0 0 =
      reverseChart 1 1 false cirPairW 3 (0, 0, 0) 0 0 := by
  refine ⟨⟨Nat.one_pos, Nat.one_pos⟩, ?_⟩
  exact C4_early_exit_equivalence 1 1 cirPairW 3 (0, 0, 0) 0 0 Nat.one_pos Nat.one_pos

/-- C9: with `0 < radius_min ≤ radius_max` and `radius_alpha ≠ 1`, every
uniform draw between the two transformed endpoints maps to a radius in
`[radius_min, radius_max]` before rounding, hence every integer radius lies
between `round(radius_min)` and `round(radius_max)` and is never negative. -/
theorem C9_radius_range {rmin rmax : ℚ} {alpha : ℤ} {t : ℚ}
    (hmin : 0 < rmin) (hle : rmin ≤ rmax) (hα : alpha ≠ 1)
    (ht0 : 0 ≤ t) (ht1 : t < 1) :
    ((rmin : ℝ) ≤
        ((uniformAt (rmax ^ (1 - alpha)) (rmin ^ (1 - alpha)) t : ℚ) : ℝ) ^
          ((radiusExponentQ alpha : ℚ) : ℝ) ∧
      ((uniformAt (rmax ^ (1 - alpha)) (rmin ^ (1 - alpha)) t : ℚ) : ℝ) ^
          ((radiusExponentQ alpha : ℚ) : ℝ) ≤ (rmax : ℝ)) ∧
    npRound ((rmin : ℝ)) ≤
        radiusOf alpha (uniformAt (rmax ^ (1 - alpha)) (rmin ^ (1 - alpha)) t) ∧
    radiusOf alpha (uniformAt (rmax ^ (1 - alpha)) (rmin ^ (1 - alpha)) t) ≤
        npRound ((rmax : ℝ)) ∧
    0 ≤ radiusOf alpha (uniformAt (rmax ^ (1 - alpha)) (rmin ^ (1 - alpha)) t) := by
  obtain ⟨hlo, hhi⟩ :=
    @uniformAt_between (rmax ^ (1 - alpha)) (rmin ^ (1 - alpha)) t ht0 (le_of_lt ht1)
  obtain ⟨h1, h2⟩ := radius_rpow_bounds hmin hle hα hlo hhi
  refine ⟨⟨h1, h2⟩, npRound_mono h1, npRound_mono h2, ?_⟩
  exact le_trans (npRound_nonneg (by exact_mod_cast le_of_lt hmin)) (npRound_mono h1)

/-- Witness for C9 with `radius_min = 1`, `radius_max = 2`, `alpha = 3` and
the raw draw `t = 0`, whose uniform value is the endpoint `2**(1-3)`. -/
theorem C9_radius_range_witness :
    (0 < (1 : ℚ) ∧ (1 : ℚ) ≤ 2 ∧ (3 : ℤ) ≠ 1 ∧ 0 ≤ (0 : ℚ) ∧ (0 : ℚ) < 1) ∧
    (((1 : ℚ) : ℝ) ≤
        ((uniformAt ((2 : ℚ) ^ (1 - (3 : ℤ))) ((1 : ℚ) ^ (1 - (3 : ℤ))) 0 : ℚ) : ℝ) ^
          ((radiusExponentQ 3 : ℚ) : ℝ) ∧
      ((uniformAt ((2 : ℚ) ^ (1 - (3 : ℤ))) ((1 : ℚ) ^ (1 - (3 : ℤ))) 0 : ℚ) : ℝ) ^
          ((radiusExponentQ 3 : ℚ) : ℝ) ≤ ((2 : ℚ) : ℝ)) ∧
    npRound (((1 : ℚ) : ℝ)) ≤
        radiusOf 3 (uniformAt ((2 : ℚ) ^ (1 - (3 : ℤ))) ((1 : ℚ) ^ (1 - (3 : ℤ))) 0) ∧
    radiusOf 3 (uniformAt ((2 : ℚ) ^ (1 - (3 : ℤ))) ((1 : ℚ) ^ (1 - (3 : ℤ))) 0) ≤
        npRound (((2 : ℚ) : ℝ)) ∧
    0 ≤ radiusOf 3 (uniformAt ((2 : ℚ) ^ (1 - (3 : ℤ))) ((1 : ℚ) ^ (1 - (3 : ℤ))) 0) :=
  ⟨⟨by decide, by decide, by decide, by decide, by decide⟩,
   C9_radius_range (by decide) (by decide) (by decide) (by decide) (by decide)⟩

/-- C2: the radius sampler draws `u` uniformly between the endpoints
`radius_max**(1-alpha)` (low) and `radius_min**(1-alpha)` (high), the code's
exponent `-1/(radius_alpha - 1)` equals `1/(1-alpha)`, and every sampled
radius equals `round(u ** (1/(1-alpha)))` — the spec's formula. -/
theorem C2_radius_formula (p : Params) (g : Rng) (hw : 0 < p.w) (hh : 0 < p.h)
    (hα : p.radius_alpha ≠ 1) (hmin : 0 < resolvedRadiusMin p)
    (hmax : 0 < resolvedRadiusMax p) :
    qzpow (resolvedRadiusMax p) (1 - p.radius_alpha) =
        .ok ((resolvedRadiusMax p) ^ (1 - p.radius_alpha)) ∧
    qzpow (resolvedRadiusMin p) (1 - p.radius_alpha) =
        .ok ((resolvedRadiusMin p) ^ (1 - p.radius_alpha)) ∧
    ((radiusExponentQ p.radius_alpha : ℚ) : ℝ) = 1 / (1 - (p.radius_alpha : ℝ)) ∧
    sampleGeometry p g =
      .ok (fun i => ⌊g.stream (g.pos + i) * (p.w : ℚ)⌋,
           fun i => ⌊g.stream (g.pos + (resolvedCircles p).toNat + i) * (p.h : ℚ)⌋,
           fun i => specRadius p.radius_alpha
             (uniformAt ((resolvedRadiusMax p) ^ (1 - p.radius_alpha))
               ((resolvedRadiusMin p) ^ (1 - p.radius_alpha))
               (g.stream (g.pos + (resolvedCircles p).toNat + (resolvedCircles p).toNat + i))),
           ⟨g.stream, g.pos + (resolvedCircles p).toNat + (resolvedCircles p).toNat
              + (resolvedCircles p).toNat⟩) := by
  refine ⟨?_, ?_, radiusExponentQ_eq p.radius_alpha hα, ?_⟩
  · unfold qzpow
    rw [if_neg (fun hc => (ne_of_gt hmax) hc.1)]
  · unfold qzpow
    rw [if_neg (fun hc => (ne_of_gt hmin) hc.1)]
  · rw [sampleGeometry_ok p g hw hh hα (ne_of_gt hmax) (ne_of_gt hmin)]
    refine congrArg Except.ok ?_
    refine Prod.ext rfl (Prod.ext rfl (Prod.ext ?_ rfl))
    funext i
    exact radiusOf_eq_specRadius p.radius_alpha hα _

/-- Concrete parameters for the C2 witness: a `1 × 1` canvas, one circle,
`radius_min = 1`, `radius_max = 2`, `radius_alpha = 3`. -/
def pC2 : Params := ⟨1, 1, 1, (0, 0, 0), true, 1, 2, 3, true⟩

/-- The all-zeros raw stream used by several witnesses. -/
def gZero : Rng := ⟨fun _ => 0, 0⟩

/-- Witness for C2 at the concrete parameters `pC2` and the all-zeros
stream. -/
theorem C2_radius_formula_witness :
    (0 < pC2.w ∧ 0 < pC2.h ∧ pC2.radius_alpha ≠ 1 ∧
      0 < resolvedRadiusMin pC2 ∧ 0 < resolvedRadiusMax pC2) ∧
    qzpow (resolvedRadiusMax pC2) (1 - pC2.radius_alpha) =
        .ok ((resolvedRadiusMax pC2) ^ (1 - pC2.radius_alpha)) ∧
    qzpow (resolvedRadiusMin pC2) (1 - pC2.radius_alpha) =
        .ok ((resolvedRadiusMin pC2) ^ (1 - pC2.radius_alpha)) ∧
    ((radiusExponentQ pC2.radius_alpha : ℚ) : ℝ) = 1 / (1 - (pC2.radius_alpha : ℝ)) ∧
    sampleGeometry pC2 gZero =
      .ok (fun i => ⌊gZero.stream (gZero.pos + i) * (pC2.w : ℚ)⌋,
           fun i => ⌊gZero.stream (gZero.pos + (resolvedCircles pC2).toNat + i) * (pC2.h : ℚ)⌋,
           fun i => specRadius pC2.radius_alpha
             (uniformAt ((resolvedRadiusMax pC2) ^ (1 - pC2.radius_alpha))
               ((resolvedRadiusMin pC2) ^ (1 - pC2.radius_alpha))
               (gZero.stream (gZero.pos + (resolvedCircles pC2).toNat
                  + (resolvedCircles pC2).toNat + i))),
           ⟨gZero.stream, gZero.pos + (resolvedCircles pC2).toNat
              + (resolvedCircles pC2).toNat + (resolvedCircles pC2).toNat⟩) :=
  ⟨⟨by decide, by decide, by decide, by decide, by decide⟩,
   C2_radius_formula pC2 gZero (by decide) (by decide) (by decide) (by decide) (by decide)⟩

/-- C3: with a fixed seed and fixed parameters, two independent generation
runs produce identical output buffers and forward the same sub-seed to the
color sampler. -/
theorem C3_determinism (seedSequence : ℤ → ℕ → ℚ) (p : Params) (s₁ s₂ : ℤ)
    (hs : s₁ = s₂) :
    dead_leaves_chart p (mkRng seedSequence s₁) =
        dead_leaves_chart p (mkRng seedSequence s₂) ∧
    colorSubseed p (mkRng seedSequence s₁) = colorSubseed p (mkRng seedSequence s₂) := by
  subst hs
  exact ⟨rfl, rfl⟩

/-- Witness for C3: two runs with seed 7 on a concrete parameter set. -/
theorem C3_determinism_witness :
    dead_leaves_chart pC2 (mkRng (fun _ _ => 0) 7) =
        dead_leaves_chart pC2 (mkRng (fun _ _ => 0) 7) ∧
    colorSubseed pC2 (mkRng (fun _ _ => 0) 7) =
        colorSubseed pC2 (mkRng (fun _ _ => 0) 7) :=
  C3_determinism (fun _ _ => 0) pC2 7 7 rfl

/-- C10: the sampled circle centers and radii (and the generator state handed
to the color sampler) are identical whether `colored` is true or false: the
whole geometry stage is drawn from the shared stream before any color draw,
and the flag is not read before the color stage. -/
theorem C10_geometry_independent_of_colored (p : Params) (g : Rng) :
    sampleGeometry { p with colored := true } g =
      sampleGeometry { p with colored := false } g := rfl

/-! ## Concrete runs of the pipeline -/

lemma reverseChart_zero (h w : ℕ) (cir : ℕ → CircleDesc) (bg : Color) :
    reverseChart h w true cir 0 bg = fun _ _ => bg := by
  funext y x
  show (0 : Color) + cscale 1 bg = bg
  rw [cscale_one, zero_add]

lemma forwardChart_zero (cir : ℕ → CircleDesc) (bg : Color) :
    forwardChart cir 0 bg = fun _ _ => bg := rfl

lemma resolvedCircles_toNat_zero (p : Params) (hn : p.number_of_circles = 0) :
    (resolvedCircles p).toNat = 0 := by
  unfold resolvedCircles
  rw [hn]
  simp

/-- With `number_of_circles = 0` and otherwise well-formed parameters, the
generation entry point returns the background-colored canvas without error. -/
lemma dead_leaves_chart_zero_circles (p : Params) (g : Rng)
    (hn : p.number_of_circles = 0) (hw : 0 < p.w) (hh : 0 < p.h)
    (hα : p.radius_alpha ≠ 1) (hmax : resolvedRadiusMax p ≠ 0)
    (hmin : resolvedRadiusMin p ≠ 0) :
    dead_leaves_chart p g =
      .ok (finalize p.colored p.h.toNat p.w.toNat (fun _ _ => p.background_color)) := by
  have hn0 : (resolvedCircles p).toNat = 0 := resolvedCircles_toNat_zero p hn
  unfold dead_leaves_chart
  rw [sampleGeometry_ok p g hw hh hα hmax hmin]
  rcases hc : p.colored with _ | _ <;> rcases hr : p.reverse with _ | _ <;>
    simp [sampleColorsStage, rngIntegers, rngUniform, hc, hr, hn0,
      reverseChart_zero, forwardChart_zero]

/-- With `radius_alpha = 1` the `ZeroDivisionError` from `-1/(radius_alpha-1)`
surfaces from the geometry stage (after the draws are consumed). -/
lemma sampleGeometry_alpha_one (p : Params) (g : Rng) (hα : p.radius_alpha = 1)
    (hw : 0 < p.w) (hh : 0 < p.h) :
    sampleGeometry p g = .error .zeroDivision := by
  unfold sampleGeometry rngIntegers qzpow
  simp [if_neg (show ¬ p.w ≤ 0 by omega), if_neg (show ¬ p.h ≤ 0 by omega), hα]

/-- With a non-positive width, `rng.integers(0, size[1], ...)` raises
`ValueError: low >= high`. -/
lemma sampleGeometry_nonpos_w (p : Params) (g : Rng) (hw : p.w ≤ 0) :
    sampleGeometry p g = .error .valueError := by
  unfold sampleGeometry rngIntegers
  simp [if_pos hw]

/-- With a positive width but a non-positive height, the first center draw
succeeds and `rng.integers(0, size[0], ...)` raises `ValueError`. -/
lemma sampleGeometry_nonpos_h (p : Params) (g : Rng) (hw : 0 < p.w) (hh : p.h ≤ 0) :
    sampleGeometry p g = .error .valueError := by
  unfold sampleGeometry rngIntegers
  simp [if_neg (show ¬ p.w ≤ 0 by omega), if_pos hh]

lemma dead_leaves_chart_error (p : Params) (g : Rng) (e : PyErr)
    (hgeo : sampleGeometry p g = .error e) :
    dead_leaves_chart p g = .error e := by
  unfold dead_leaves_chart
  rw [hgeo]

/-- Whether a generation run returned a buffer (no exception). -/
def resultOk (r : Except PyErr Output) : Bool :=
  match r with
  | .ok _ => true
  | .error _ => false

/-- A call with a positive canvas, `radius_alpha ≠ 1` and non-zero resolved
radius bounds always returns a buffer, whatever the circle count and however
`radius_min` and `radius_max` are ordered: the color stage cannot fail. -/
lemma dead_leaves_chart_isOk (p : Params) (g : Rng) (hw : 0 < p.w) (hh : 0 < p.h)
    (hα : p.radius_alpha ≠ 1) (hmax : resolvedRadiusMax p ≠ 0)
    (hmin : resolvedRadiusMin p ≠ 0) :
    resultOk (dead_leaves_chart p g) = true := by
  unfold dead_leaves_chart
  rw [sampleGeometry_ok p g hw hh hα hmax hmin]
  unfold sampleColorsStage rngIntegers
  have h10 : ¬ (10 : ℤ) ^ 10 ≤ 0 := by norm_num
  rcases hc : p.colored with _ | _
  · simp [hc, rngUniform, resultOk]
  · simp [hc, h10, resultOk]

/-- Parameters with `radius_max < radius_min` (2 < 5), otherwise valid. -/
def pC5 : Params := ⟨1, 1, 0, (1/2, 1/2, 1/2), true, 5, 2, 3, true⟩

/-- C5 counterexample: a call with `radius_max < radius_min` is not rejected —
the entry point returns a canvas with no validation error at all. -/
theorem C5_counterexample :
    resolvedRadiusMax pC5 < resolvedRadiusMin pC5 ∧
    dead_leaves_chart pC5 gZero =
      .ok (finalize pC5.colored pC5.h.toNat pC5.w.toNat
        (fun _ _ => pC5.background_color)) :=
  ⟨by decide,
   dead_leaves_chart_zero_circles pC5 gZero (by decide) (by decide) (by decide)
     (by decide) (by decide) (by decide)⟩

/-- C5 amended: the generation entry point performs no up-front parameter
validation.  `radius_alpha = 1` surfaces as a `ZeroDivisionError` raised
inside the radius transform (after the center and uniform draws); a
non-positive width, or a non-positive height with a positive width, surfaces
as a `ValueError` from the respective center-sampling call; and with a
positive canvas, `radius_alpha ≠ 1` and non-zero resolved radius bounds the
call always returns a buffer, whatever the circle count and however
`radius_min` and `radius_max` are ordered — in particular
`radius_max < radius_min` is silently accepted (see the counterexample). -/
theorem C5_amended_error_behaviour (p : Params) (g : Rng) :
    (p.radius_alpha = 1 → 0 < p.w → 0 < p.h →
      dead_leaves_chart p g = .error .zeroDivision) ∧
    (p.w ≤ 0 → dead_leaves_chart p g = .error .valueError) ∧
    (0 < p.w → p.h ≤ 0 → dead_leaves_chart p g = .error .valueError) ∧
    (0 < p.w → 0 < p.h → p.radius_alpha ≠ 1 → resolvedRadiusMax p ≠ 0 →
      resolvedRadiusMin p ≠ 0 → resultOk (dead_leaves_chart p g) = true) :=
  ⟨fun hα hw hh => dead_leaves_chart_error p g _ (sampleGeometry_alpha_one p g hα hw hh),
   fun hw => dead_leaves_chart_error p g _ (sampleGeometry_nonpos_w p g hw),
   fun hw hh => dead_leaves_chart_error p g _ (sampleGeometry_nonpos_h p g hw hh),
   fun hw hh hα hmax hmin => dead_leaves_chart_isOk p g hw hh hα hmax hmin⟩

/-- Parameters with the singular `radius_alpha = 1`. -/
def pAlphaOne : Params := ⟨1, 1, 0, (0, 0, 0), true, 1, 2, 1, true⟩

/-- Parameters with a non-positive width. -/
def pBadWidth : Params := ⟨1, 0, 0, (0, 0, 0), true, 1, 2, 3, true⟩

/-- Parameters with a positive width but a non-positive height. -/
def pBadHeight : Params := ⟨0, 1, 0, (0, 0, 0), true, 1, 2, 3, true⟩

/-- Parameters with `radius_max < radius_min` (2 < 5) and a positive circle
count. -/
def pC5n : Params := ⟨1, 1, 3, (0, 0, 0), true, 5, 2, 3, true⟩

/-- Witness for the amended C5 behaviour on concrete invalid parameters:
`alpha = 1`, zero width, zero height, and a reversed radius interval with
three circles that is nevertheless accepted. -/
theorem C5_amended_error_behaviour_witness :
    dead_leaves_chart pAlphaOne gZero = .error .zeroDivision ∧
    dead_leaves_chart pBadWidth gZero = .error .valueError ∧
    dead_leaves_chart pBadHeight gZero = .error .valueError ∧
    (resolvedRadiusMax pC5n < resolvedRadiusMin pC5n ∧
      resultOk (dead_leaves_chart pC5n gZero) = true) :=
  ⟨(C5_amended_error_behaviour pAlphaOne gZero).1 (by decide) (by decide) (by decide),
   (C5_amended_error_behaviour pBadWidth gZero).2.1 (by decide),
   (C5_amended_error_behaviour pBadHeight gZero).2.2.1 (by decide) (by decide),
   by decide,
   (C5_amended_error_behaviour pC5n gZero).2.2.2 (by decide) (by decide) (by decide)
     (by decide) (by decide)⟩

lemma finalize_spec (colored : Bool) (h w : ℕ) (chart : ℕ → ℕ → Color) (y x k : ℕ) :
    (finalize colored h w chart).channels = (if colored then 3 else 1) ∧
    (finalize colored h w chart).height = h ∧
    (finalize colored h w chart).width = w ∧
    (0 ≤ (finalize colored h w chart).data y x k ∧
      (finalize colored h w chart).data y x k ≤ 1) := by
  cases colored
  · exact ⟨rfl, rfl, rfl, clipQ_nonneg _, clipQ_le_one _⟩
  · exact ⟨rfl, rfl, rfl, chan_clip_mem (chart y x) k⟩

/-- C8: whenever the generation entry point returns a buffer, every channel
value lies in `[0, 1]`, and the buffer has `height × width` pixels with 3
channels when colored and 1 channel when monochrome. -/
theorem C8_output_shape_and_clipping (p : Params) (g : Rng) (o : Output)
    (hok : dead_leaves_chart p g = .ok o) (y x k : ℕ) :
    o.channels = (if p.colored then 3 else 1) ∧
    o.height = p.h.toNat ∧
    o.width = p.w.toNat ∧
    (0 ≤ o.data y x k ∧ o.data y x k ≤ 1) := by
  unfold dead_leaves_chart at hok
  split at hok
  · exact Except.noConfusion hok
  · simp only [] at hok
    split at hok
    · exact Except.noConfusion hok
    · try simp only [] at hok
      injection hok with h'
      subst h'
      exact finalize_spec p.colored _ _ _ y x k

/-- Well-formed parameters with zero circles for the C8 witness. -/
def pC8 : Params := ⟨1, 1, 0, (1/2, 1/2, 1/2), true, 1, 2, 3, true⟩

/-- Witness for C8 on a completed concrete run. -/
theorem C8_output_shape_and_clipping_witness :
    (finalize pC8.colored pC8.h.toNat pC8.w.toNat
        (fun _ _ => pC8.background_color)).channels = (if pC8.colored then 3 else 1) ∧
    (finalize pC8.colored pC8.h.toNat pC8.w.toNat
        (fun _ _ => pC8.background_color)).height = pC8.h.toNat ∧
    (finalize pC8.colored pC8.h.toNat pC8.w.toNat
        (fun _ _ => pC8.background_color)).width = pC8.w.toNat ∧
    (0 ≤ (finalize pC8.colored pC8.h.toNat pC8.w.toNat
        (fun _ _ => pC8.background_color)).data 0 0 0 ∧
      (finalize pC8.colored pC8.h.toNat pC8.w.toNat
        (fun _ _ => pC8.background_color)).data 0 0 0 ≤ 1) :=
  C8_output_shape_and_clipping pC8 gZero _
    (dead_leaves_chart_zero_circles pC8 gZero (by decide) (by decide) (by decide)
      (by decide) (by decide) (by decide)) 0 0 0

/-- C7 amended: a circle count of exactly 0 yields the background-colored
canvas without error; a negative count is instead reinterpreted as
`30 * max(height, width)` circles (see the counterexample). -/
theorem C7_zero_circles_background (p : Params) (g : Rng)
    (hn : p.number_of_circles = 0) (hw : 0 < p.w) (hh : 0 < p.h)
    (hα : p.radius_alpha ≠ 1) (hmax : resolvedRadiusMax p ≠ 0)
    (hmin : resolvedRadiusMin p ≠ 0)
    (hbg : clipColor p.background_color = p.background_color) (y x k : ℕ) :
    resultOk (dead_leaves_chart p g) = true ∧
    pixelData (dead_leaves_chart p g) y x k =
      some (if p.colored then chan p.background_color k else p.background_color.1) := by
  rw [dead_leaves_chart_zero_circles p g hn hw hh hα hmax hmin]
  refine ⟨rfl, ?_⟩
  rcases hc : p.colored with _ | _ <;> simp [pixelData, finalize, hc, hbg]

/-- Monochrome zero-circle parameters for the amended C7 witness. -/
def pC7z : Params := ⟨1, 1, 0, (1, 1, 1), false, 1, 2, 3, true⟩

/-- Witness for the amended C7 on a concrete zero-circle run. -/
theorem C7_zero_circles_background_witness :
    resultOk (dead_leaves_chart pC7z gZero) = true ∧
    pixelData (dead_leaves_chart pC7z gZero) 0 0 0 =
      some (if pC7z.colored then chan pC7z.background_color 0
            else pC7z.background_color.1) :=
  C7_zero_circles_background pC7z gZero (by decide) (by decide) (by decide)
    (by decide) (by decide) (by decide) (by decide) 0 0 0

lemma covers_center (a b r : ℤ) (col : Color) : covers ⟨a, b, r, col⟩ a b := by
  unfold covers
  simpa using sq_nonneg r

/-- If the first circle already covers an in-canvas pixel, reverse mode
commits that circle's color there. -/
lemma reverseChart_first_covers (h w : ℕ) (cir : ℕ → CircleDesc) (n : ℕ)
    (bg : Color) (y x : ℕ) (hy : y < h) (hx : x < w)
    (hc : covers (cir 0) (x : ℤ) (y : ℤ)) (hn : 0 < n) :
    reverseChart h w true cir n bg y x = (cir 0).color := by
  rw [reverseChart_eq_firstCover h w cir n bg y x hy hx]
  obtain ⟨m, rfl⟩ : ∃ m, n = m + 1 := ⟨n - 1, by omega⟩
  simp [firstCoverIdx, hc]

/-- Parameters with a negative circle count on a `1 × 1` canvas: the count is
resolved to `30 * max(1, 1) = 30`, not to zero. -/
def pC7 : Params := ⟨1, 1, -1, (0, 0, 0), false, -1, -1, 3, true⟩

/-- The circle descriptors pC7's run samples from the all-zeros stream. -/
noncomputable def cirC7 : ℕ → CircleDesc := fun i =>
  ⟨⌊gZero.stream (gZero.pos + i) * (pC7.w : ℚ)⌋,
   ⌊gZero.stream (gZero.pos + 30 + i) * (pC7.h : ℚ)⌋,
   radiusOf pC7.radius_alpha
     (uniformAt (resolvedRadiusMax pC7 ^ (1 - pC7.radius_alpha))
       (resolvedRadiusMin pC7 ^ (1 - pC7.radius_alpha))
       (gZero.stream (gZero.pos + 30 + 30 + i))),
   (uniformAt (1/4) (3/4) (gZero.stream (gZero.pos + 30 + 30 + 30 + i)),
    uniformAt (1/4) (3/4) (gZero.stream (gZero.pos + 30 + 30 + 30 + i)),
    uniformAt (1/4) (3/4) (gZero.stream (gZero.pos + 30 + 30 + 30 + i)))⟩

lemma c7_run : dead_leaves_chart pC7 gZero =
    .ok (finalize false 1 1 (reverseChart 1 1 true cirC7 30 (0, 0, 0))) := by
  have h30 : (resolvedCircles pC7).toNat = 30 := by decide
  unfold dead_leaves_chart
  rw [sampleGeometry_ok pC7 gZero (by decide) (by decide) (by decide) (by decide)
    (by decide), h30]
  rfl

/-- C7 counterexample: with `number_of_circles = -1 ≤ 0` on a `1 × 1` canvas
the run completes without error but paints pixel `(0,0)` with the first
circle's gray value `1/4`, not with the background color `0`: a negative
count is resolved to `30 * max(size)` circles rather than producing a
background-colored canvas. -/
theorem C7_counterexample :
    pC7.number_of_circles ≤ 0 ∧
    resultOk (dead_leaves_chart pC7 gZero) = true ∧
    pixelData (dead_leaves_chart pC7 gZero) 0 0 0 ≠
      some (chan pC7.background_color 0) := by
  refine ⟨by decide, ?_, ?_⟩
  · rw [c7_run]
    rfl
  · rw [c7_run]
    have h1 : (cirC7 0).cx = 0 := by
      unfold cirC7 gZero
      norm_num
    have h2 : (cirC7 0).cy = 0 := by
      unfold cirC7 gZero
      norm_num
    have hcov : covers (cirC7 0) ((0 : ℕ) : ℤ) ((0 : ℕ) : ℤ) := by
      unfold covers
      rw [h1, h2]
      simpa using sq_nonneg (cirC7 0).r
    have hch := reverseChart_first_covers 1 1 cirC7 30 (0, 0, 0) 0 0
      Nat.one_pos Nat.one_pos hcov (by norm_num)
    intro hcontra
    rw [show pixelData
          (.ok (finalize false 1 1 (reverseChart 1 1 true cirC7 30 (0, 0, 0)))) 0 0 0
        = some ((clipColor (reverseChart 1 1 true cirC7 30 (0, 0, 0) 0 0)).1) from rfl,
      hch] at hcontra
    have hval : (clipColor (cirC7 0).color).1 = 1/4 := by
      unfold cirC7 gZero clipColor clipQ uniformAt
      norm_num
    rw [hval, show chan pC7.background_color 0 = 0 from rfl] at hcontra
    injection hcontra with hq
    norm_num at hq
